import Mathlib

/-!
Verification development for the NoiseTreeOps repository.

The definitions below are a shallow embedding of the HBHE channel map
(`HBHEChannelMap.C`), the channel geometry loader (`HBHEChannelGeometry.C`),
the per-channel energy reduction (`NoiseTreeHelper.C`) and the energy-budget
channel pruning step.  Pure C++ functions become Lean functions; the lazily
filled neighbor caches become explicit state passing; C++ `throw` becomes
`Except`; `double` arithmetic is modelled over `ℚ`.

The hardware-module (HPD) assignment comes from `HcalHPDRBXMap::indexHPD`,
which is external to this repository, so it is modelled from the spec as an
arbitrary pure function from the physical channel coordinates to a module
identifier; all module-related results are parametric in that function.
-/

set_option maxHeartbeats 4000000
set_option maxRecDepth 4000

namespace NoiseTreeOps

/-- A calorimeter channel identifier: the (depth, ieta, iphi) triple held by
`HBHEChannelId` in the source.  `depth` and `iphi` are unsigned in C++,
`ieta` is signed. -/
structure HBHEChannelId where
  depth : Nat
  ieta : Int
  iphi : Nat
  deriving DecidableEq, Repr

instance : Inhabited HBHEChannelId := ⟨⟨0, 0, 0⟩⟩

/-- Integer range `lo..hi` inclusive, mirroring `for (int ieta = lo; ieta <= hi; ++ieta)`. -/
def etaRange (lo hi : Int) : List Int :=
  (List.range (hi + 1 - lo).toNat).map (fun (k : Nat) => lo + (k : Int))

/-- Azimuth bins produced by `for (unsigned iphi = 1; iphi <= 72; ++iphi)`. -/
def phiFull : List Nat := (List.range 72).map (fun k => k + 1)

/-- Azimuth bins produced by `for (unsigned iphi = 1; iphi < 72; iphi += 2)`. -/
def phiHalf : List Nat := (List.range 36).map (fun k => 2 * k + 1)

/-- One doubly nested loop of the `HBHEChannelMap` constructor: all channels of
a fixed depth whose ieta runs over `etas` and iphi over `phis`, in loop order. -/
def block (depth : Nat) (etas : List Int) (phis : List Nat) : List HBHEChannelId :=
  etas.flatMap (fun e => phis.map (fun p => ⟨depth, e, p⟩))

/-- The channel enumeration built by the `HBHEChannelMap` constructor: the
contents of `lookup_`, in construction order (the linear index of a channel is
its position in this list). -/
def lookup : List HBHEChannelId :=
  block 1 (etaRange (-29) (-21)) phiHalf ++
  (block 1 ((etaRange (-20) 20).filter (fun e => e ≠ 0)) phiFull ++
  (block 1 (etaRange 21 29) phiHalf ++
  (block 2 (etaRange (-29) (-21)) phiHalf ++
  (block 2 (etaRange (-20) (-18)) phiFull ++
  (block 2 (etaRange (-16) (-15)) phiFull ++
  (block 2 (etaRange 15 16) phiFull ++
  (block 2 (etaRange 18 20) phiFull ++
  (block 2 (etaRange 21 29) phiHalf ++
  (block 3 (etaRange (-28) (-27)) phiHalf ++
  (block 3 (etaRange (-16) (-16)) phiFull ++
  (block 3 (etaRange 16 16) phiFull ++
  block 3 (etaRange 27 28) phiHalf)))))))))))

/-- The fixed detector constant `HBHEChannelMap::ChannelCount`. -/
def ChannelCount : Nat := 5184

/-- Azimuth bins visited by the half-granularity loop: odd `iphi` up to 71. -/
abbrev OddPhi (p : Nat) : Prop := p % 2 = 1 ∧ p ≤ 71

/-- Azimuth bins visited by the full-granularity loop: `1 ≤ iphi ≤ 72`. -/
abbrev FullPhi (p : Nat) : Prop := 1 ≤ p ∧ p ≤ 72

/-- Arithmetic characterization of the channel triples enumerated by the
constructor, one disjunct per constructor loop, in loop order. -/
abbrev ValidTriple (c : HBHEChannelId) : Prop :=
  (c.depth = 1 ∧ (-29 ≤ c.ieta ∧ c.ieta ≤ -21) ∧ OddPhi c.iphi) ∨
  (c.depth = 1 ∧ ((-20 ≤ c.ieta ∧ c.ieta ≤ 20) ∧ c.ieta ≠ 0) ∧ FullPhi c.iphi) ∨
  (c.depth = 1 ∧ (21 ≤ c.ieta ∧ c.ieta ≤ 29) ∧ OddPhi c.iphi) ∨
  (c.depth = 2 ∧ (-29 ≤ c.ieta ∧ c.ieta ≤ -21) ∧ OddPhi c.iphi) ∨
  (c.depth = 2 ∧ (-20 ≤ c.ieta ∧ c.ieta ≤ -18) ∧ FullPhi c.iphi) ∨
  (c.depth = 2 ∧ (-16 ≤ c.ieta ∧ c.ieta ≤ -15) ∧ FullPhi c.iphi) ∨
  (c.depth = 2 ∧ (15 ≤ c.ieta ∧ c.ieta ≤ 16) ∧ FullPhi c.iphi) ∨
  (c.depth = 2 ∧ (18 ≤ c.ieta ∧ c.ieta ≤ 20) ∧ FullPhi c.iphi) ∨
  (c.depth = 2 ∧ (21 ≤ c.ieta ∧ c.ieta ≤ 29) ∧ OddPhi c.iphi) ∨
  (c.depth = 3 ∧ (-28 ≤ c.ieta ∧ c.ieta ≤ -27) ∧ OddPhi c.iphi) ∨
  (c.depth = 3 ∧ (-16 ≤ c.ieta ∧ c.ieta ≤ -16) ∧ FullPhi c.iphi) ∨
  (c.depth = 3 ∧ (16 ≤ c.ieta ∧ c.ieta ≤ 16) ∧ FullPhi c.iphi) ∨
  (c.depth = 3 ∧ (27 ≤ c.ieta ∧ c.ieta ≤ 28) ∧ OddPhi c.iphi)

instance (p : Nat) : Decidable (OddPhi p) :=
  inferInstanceAs (Decidable (p % 2 = 1 ∧ p ≤ 71))

instance (p : Nat) : Decidable (FullPhi p) :=
  inferInstanceAs (Decidable (1 ≤ p ∧ p ≤ 72))

instance (c : HBHEChannelId) : Decidable (ValidTriple c) :=
  inferInstanceAs (Decidable (
    (c.depth = 1 ∧ (-29 ≤ c.ieta ∧ c.ieta ≤ -21) ∧ OddPhi c.iphi) ∨
    (c.depth = 1 ∧ ((-20 ≤ c.ieta ∧ c.ieta ≤ 20) ∧ c.ieta ≠ 0) ∧ FullPhi c.iphi) ∨
    (c.depth = 1 ∧ (21 ≤ c.ieta ∧ c.ieta ≤ 29) ∧ OddPhi c.iphi) ∨
    (c.depth = 2 ∧ (-29 ≤ c.ieta ∧ c.ieta ≤ -21) ∧ OddPhi c.iphi) ∨
    (c.depth = 2 ∧ (-20 ≤ c.ieta ∧ c.ieta ≤ -18) ∧ FullPhi c.iphi) ∨
    (c.depth = 2 ∧ (-16 ≤ c.ieta ∧ c.ieta ≤ -15) ∧ FullPhi c.iphi) ∨
    (c.depth = 2 ∧ (15 ≤ c.ieta ∧ c.ieta ≤ 16) ∧ FullPhi c.iphi) ∨
    (c.depth = 2 ∧ (18 ≤ c.ieta ∧ c.ieta ≤ 20) ∧ FullPhi c.iphi) ∨
    (c.depth = 2 ∧ (21 ≤ c.ieta ∧ c.ieta ≤ 29) ∧ OddPhi c.iphi) ∨
    (c.depth = 3 ∧ (-28 ≤ c.ieta ∧ c.ieta ≤ -27) ∧ OddPhi c.iphi) ∨
    (c.depth = 3 ∧ (-16 ≤ c.ieta ∧ c.ieta ≤ -16) ∧ FullPhi c.iphi) ∨
    (c.depth = 3 ∧ (16 ≤ c.ieta ∧ c.ieta ≤ 16) ∧ FullPhi c.iphi) ∨
    (c.depth = 3 ∧ (27 ≤ c.ieta ∧ c.ieta ≤ 28) ∧ OddPhi c.iphi)))

theorem mem_etaRange {lo hi e : Int} : e ∈ etaRange lo hi ↔ lo ≤ e ∧ e ≤ hi := by
  simp only [etaRange, List.mem_map, List.mem_range]
  constructor
  · rintro ⟨k, hk, rfl⟩; omega
  · intro h
    exact ⟨(e - lo).toNat, by omega, by omega⟩

theorem mem_phiFull {p : Nat} : p ∈ phiFull ↔ FullPhi p := by
  simp only [phiFull, FullPhi, List.mem_map, List.mem_range]
  constructor
  · rintro ⟨k, hk, rfl⟩; omega
  · intro h; exact ⟨p - 1, by omega, by omega⟩

theorem mem_phiHalf {p : Nat} : p ∈ phiHalf ↔ OddPhi p := by
  simp only [phiHalf, OddPhi, List.mem_map, List.mem_range]
  constructor
  · rintro ⟨k, hk, rfl⟩; omega
  · intro h; exact ⟨(p - 1) / 2, by omega, by omega⟩

theorem mem_block {d : Nat} {etas : List Int} {phis : List Nat} {x : HBHEChannelId} :
    x ∈ block d etas phis ↔ x.depth = d ∧ x.ieta ∈ etas ∧ x.iphi ∈ phis := by
  simp only [block, List.mem_flatMap, List.mem_map]
  constructor
  · rintro ⟨e, he, p, hp, rfl⟩; exact ⟨rfl, he, hp⟩
  · obtain ⟨xd, xe, xp⟩ := x
    rintro ⟨rfl, he, hp⟩
    exact ⟨xe, he, xp, hp, rfl⟩

/-- The set of enumerated channels is exactly the set of arithmetically valid
triples. -/
theorem mem_lookup_iff {c : HBHEChannelId} : c ∈ lookup ↔ ValidTriple c := by
  simp only [lookup, List.mem_append, mem_block, List.mem_filter, mem_etaRange,
    mem_phiFull, mem_phiHalf, decide_eq_true_eq]

theorem block_length (d : Nat) (etas : List Int) (phis : List Nat) :
    (block d etas phis).length = etas.length * phis.length := by
  induction etas with
  | nil => simp [block]
  | cons e tl ih =>
      simp only [block, List.flatMap_cons, List.length_append, List.length_map,
        List.length_cons] at ih ⊢
      rw [ih]; ring

theorem etaRange_length (lo hi : Int) : (etaRange lo hi).length = (hi + 1 - lo).toNat := by
  unfold etaRange
  rw [List.length_map, List.length_range]

theorem phiFull_length : phiFull.length = 72 := by simp [phiFull]

theorem phiHalf_length : phiHalf.length = 36 := by simp [phiHalf]

theorem etaRange_filter_length :
    ((etaRange (-20) 20).filter (fun e => e ≠ 0)).length = 40 := by decide

/-- The count assertion at the end of the `HBHEChannelMap` constructor:
`assert(l == ChannelCount)`. -/
theorem lookup_length : lookup.length = ChannelCount := by
  simp only [lookup, ChannelCount, List.length_append, block_length, etaRange_length,
    etaRange_filter_length, phiFull_length, phiHalf_length]
  decide

/-- Strict lexicographic order on channel triples (depth, then ieta, then iphi). -/
def cidLt (a b : HBHEChannelId) : Prop :=
  a.depth < b.depth ∨
    (a.depth = b.depth ∧ (a.ieta < b.ieta ∨ (a.ieta = b.ieta ∧ a.iphi < b.iphi)))

theorem pairwise_etaRange (lo hi : Int) : (etaRange lo hi).Pairwise (· < ·) := by
  unfold etaRange
  rw [List.pairwise_map]
  exact (List.pairwise_lt_range _).imp (by omega)

theorem pairwise_phiFull : phiFull.Pairwise (· < ·) := by
  unfold phiFull
  rw [List.pairwise_map]
  exact (List.pairwise_lt_range _).imp (by omega)

theorem pairwise_phiHalf : phiHalf.Pairwise (· < ·) := by
  unfold phiHalf
  rw [List.pairwise_map]
  exact (List.pairwise_lt_range _).imp (by omega)

theorem pairwise_block {d : Nat} {etas : List Int} {phis : List Nat}
    (he : etas.Pairwise (· < ·)) (hp : phis.Pairwise (· < ·)) :
    (block d etas phis).Pairwise cidLt := by
  unfold block
  rw [List.pairwise_flatMap]
  constructor
  · intro e _
    rw [List.pairwise_map]
    exact hp.imp (fun h => Or.inr ⟨rfl, Or.inr ⟨rfl, h⟩⟩)
  · refine he.imp ?_
    intro a b hab x hx y hy
    simp only [List.mem_map] at hx hy
    obtain ⟨p, _, rfl⟩ := hx
    obtain ⟨q, _, rfl⟩ := hy
    exact Or.inr ⟨rfl, Or.inl hab⟩

theorem pairwise_lookup : lookup.Pairwise cidLt := by
  unfold lookup
  refine List.pairwise_append.2 ⟨pairwise_block (pairwise_etaRange _ _) pairwise_phiHalf, ?_,
    by intro x hx y hy; simp only [mem_block, List.mem_append, List.mem_filter, mem_etaRange,
      mem_phiFull, mem_phiHalf, decide_eq_true_eq] at hx hy; unfold cidLt; omega⟩
  refine List.pairwise_append.2
    ⟨pairwise_block ((pairwise_etaRange _ _).filter _) pairwise_phiFull, ?_,
    by intro x hx y hy; simp only [mem_block, List.mem_append, List.mem_filter, mem_etaRange,
      mem_phiFull, mem_phiHalf, decide_eq_true_eq] at hx hy; unfold cidLt; omega⟩
  refine List.pairwise_append.2 ⟨pairwise_block (pairwise_etaRange _ _) pairwise_phiHalf, ?_,
    by intro x hx y hy; simp only [mem_block, List.mem_append, List.mem_filter, mem_etaRange,
      mem_phiFull, mem_phiHalf, decide_eq_true_eq] at hx hy; unfold cidLt; omega⟩
  refine List.pairwise_append.2 ⟨pairwise_block (pairwise_etaRange _ _) pairwise_phiHalf, ?_,
    by intro x hx y hy; simp only [mem_block, List.mem_append, List.mem_filter, mem_etaRange,
      mem_phiFull, mem_phiHalf, decide_eq_true_eq] at hx hy; unfold cidLt; omega⟩
  refine List.pairwise_append.2 ⟨pairwise_block (pairwise_etaRange _ _) pairwise_phiFull, ?_,
    by intro x hx y hy; simp only [mem_block, List.mem_append, List.mem_filter, mem_etaRange,
      mem_phiFull, mem_phiHalf, decide_eq_true_eq] at hx hy; unfold cidLt; omega⟩
  refine List.pairwise_append.2 ⟨pairwise_block (pairwise_etaRange _ _) pairwise_phiFull, ?_,
    by intro x hx y hy; simp only [mem_block, List.mem_append, List.mem_filter, mem_etaRange,
      mem_phiFull, mem_phiHalf, decide_eq_true_eq] at hx hy; unfold cidLt; omega⟩
  refine List.pairwise_append.2 ⟨pairwise_block (pairwise_etaRange _ _) pairwise_phiFull, ?_,
    by intro x hx y hy; simp only [mem_block, List.mem_append, List.mem_filter, mem_etaRange,
      mem_phiFull, mem_phiHalf, decide_eq_true_eq] at hx hy; unfold cidLt; omega⟩
  refine List.pairwise_append.2 ⟨pairwise_block (pairwise_etaRange _ _) pairwise_phiFull, ?_,
    by intro x hx y hy; simp only [mem_block, List.mem_append, List.mem_filter, mem_etaRange,
      mem_phiFull, mem_phiHalf, decide_eq_true_eq] at hx hy; unfold cidLt; omega⟩
  refine List.pairwise_append.2 ⟨pairwise_block (pairwise_etaRange _ _) pairwise_phiHalf, ?_,
    by intro x hx y hy; simp only [mem_block, List.mem_append, List.mem_filter, mem_etaRange,
      mem_phiFull, mem_phiHalf, decide_eq_true_eq] at hx hy; unfold cidLt; omega⟩
  refine List.pairwise_append.2 ⟨pairwise_block (pairwise_etaRange _ _) pairwise_phiHalf, ?_,
    by intro x hx y hy; simp only [mem_block, List.mem_append, List.mem_filter, mem_etaRange,
      mem_phiFull, mem_phiHalf, decide_eq_true_eq] at hx hy; unfold cidLt; omega⟩
  refine List.pairwise_append.2 ⟨pairwise_block (pairwise_etaRange _ _) pairwise_phiFull, ?_,
    by intro x hx y hy; simp only [mem_block, List.mem_append, List.mem_filter, mem_etaRange,
      mem_phiFull, mem_phiHalf, decide_eq_true_eq] at hx hy; unfold cidLt; omega⟩
  refine List.pairwise_append.2 ⟨pairwise_block (pairwise_etaRange _ _) pairwise_phiFull,
    pairwise_block (pairwise_etaRange _ _) pairwise_phiHalf,
    by intro x hx y hy; simp only [mem_block, List.mem_append, List.mem_filter, mem_etaRange,
      mem_phiFull, mem_phiHalf, decide_eq_true_eq] at hx hy; unfold cidLt; omega⟩

/-- The constructed enumeration never repeats a channel triple: the
`inverse_[cid] = i` map built over it is therefore a true inverse. -/
theorem lookup_nodup : lookup.Nodup := by
  refine pairwise_lookup.imp ?_
  intro a b hab heq
  subst heq
  unfold cidLt at hab
  omega

/-- Error outcomes of the channel-map lookups: C++ throws
`std::out_of_range` and `std::invalid_argument` respectively. -/
inductive MapError where
  | IndexOutOfRange
  | InvalidChannel
  deriving DecidableEq, Repr

/-- The triple stored at `lookup_[index]`.  The C++ array has exactly
`ChannelCount` entries; out-of-range reads never occur in the source and
return the default triple here. -/
def tripleAt (index : Nat) : HBHEChannelId := lookup.getD index default

/-- Embeds `HBHEChannelMap::getChannelTriple` (the index-to-triple direction; the
C++ writes the three fields through out-pointers). -/
def getChannelTriple (index : Nat) : Except MapError HBHEChannelId :=
  if index < ChannelCount then .ok (tripleAt index) else .error .IndexOutOfRange

/-- The `inverse_.find(cid)` lookup.  The C++ builds `inverse_` by storing
`inverse_[lookup_[i]] = i` for ascending `i`; since the enumeration has no
duplicate triples (`lookup_nodup`) this is the position of `cid` in the
enumeration, here realized as the first index of `cid` in `lookup`. -/
def findChannel (cid : HBHEChannelId) : Option Nat :=
  if cid ∈ lookup then some (lookup.indexOf cid) else none

/-- Embeds `HBHEChannelMap::linearIndex`. -/
def linearIndex (cid : HBHEChannelId) : Except MapError Nat :=
  match findChannel cid with
  | some i => .ok i
  | none => .error .InvalidChannel

/-- Embeds `HBHEChannelMap::isValidTriple`. -/
def isValidTriple (cid : HBHEChannelId) : Bool := decide (cid ∈ lookup)

theorem tripleAt_eq_get {i : Nat} (h : i < lookup.length) :
    tripleAt i = lookup.get ⟨i, h⟩ := by
  unfold tripleAt
  rw [List.getD_eq_getElem _ _ h, List.get_eq_getElem]

theorem tripleAt_mem {i : Nat} (h : i < ChannelCount) : tripleAt i ∈ lookup := by
  have hl : i < lookup.length := by rw [lookup_length]; exact h
  rw [tripleAt_eq_get hl]
  exact List.get_mem _ _ _

theorem tripleAt_inj {i j : Nat} (hi : i < ChannelCount) (hj : j < ChannelCount)
    (h : tripleAt i = tripleAt j) : i = j := by
  have hi' : i < lookup.length := by rw [lookup_length]; exact hi
  have hj' : j < lookup.length := by rw [lookup_length]; exact hj
  rw [tripleAt_eq_get hi', tripleAt_eq_get hj'] at h
  have h2 := (lookup_nodup.get_inj_iff).mp h
  exact congrArg Fin.val h2

theorem findChannel_eq_some {cid : HBHEChannelId} {j : Nat} :
    findChannel cid = some j ↔ j < ChannelCount ∧ tripleAt j = cid := by
  unfold findChannel
  constructor
  · intro h
    by_cases hm : cid ∈ lookup
    · rw [if_pos hm] at h
      have hidx : lookup.indexOf cid < lookup.length := List.indexOf_lt_length.mpr hm
      have hj : lookup.indexOf cid = j := by exact Option.some.injEq _ _ ▸ h
      subst hj
      refine ⟨by rw [← lookup_length]; exact hidx, ?_⟩
      rw [tripleAt_eq_get hidx]
      exact List.indexOf_get hidx
    · rw [if_neg hm] at h
      exact absurd h (by simp)
  · rintro ⟨hj, rfl⟩
    have hj' : j < lookup.length := by rw [lookup_length]; exact hj
    have hm : tripleAt j ∈ lookup := tripleAt_mem hj
    rw [if_pos hm]
    rw [tripleAt_eq_get hj']
    rw [List.get_indexOf lookup_nodup ⟨j, hj'⟩]

theorem linearIndex_eq_ok {cid : HBHEChannelId} {i : Nat} :
    linearIndex cid = .ok i ↔ i < ChannelCount ∧ tripleAt i = cid := by
  unfold linearIndex
  cases hf : findChannel cid with
  | none =>
      simp only [reduceCtorEq, false_iff]
      rintro ⟨hi, rfl⟩
      unfold findChannel at hf
      rw [if_pos (tripleAt_mem hi)] at hf
      cases hf
  | some j =>
      rw [findChannel_eq_some] at hf
      constructor
      · intro h
        cases h
        exact hf
      · rintro ⟨hi, ht⟩
        have : i = j := tripleAt_inj hi hf.1 (ht.trans hf.2.symm)
        rw [this]

theorem findChannel_eq_none {cid : HBHEChannelId} :
    findChannel cid = none ↔ cid ∉ lookup := by
  unfold findChannel
  by_cases hm : cid ∈ lookup
  · simp [hm]
  · simp [hm]

/-- The subdetector classification outcomes produced by
`HBHEChannelMap::getSubdetector` (values of the CMSSW `HcalSubdetector`
enum actually returned by this function). -/
inductive HcalSubdetector where
  | HcalBarrel
  | HcalEndcap
  deriving DecidableEq, Repr

/-- Embeds `HBHEChannelMap::getSubdetector`.  The C++ `assert`s that the arguments
are in range before classifying; a violated assertion (which aborts the
process) is modelled as `none`. -/
def getSubdetector (depth : Nat) (ieta : Int) : Option HcalSubdetector :=
  if ieta.natAbs ≤ 29 ∧ 0 < depth ∧ depth < 4 ∧ (ieta.natAbs = 29 → depth ≤ 2) then
    some (if ieta.natAbs ≤ 15 then .HcalBarrel
          else if ieta.natAbs = 16 then (if depth ≤ 2 then .HcalBarrel else .HcalEndcap)
          else .HcalEndcap)
  else none

/-- Modelled from the spec: the hardware-module (HPD) assignment.  The source
obtains it from `HcalHPDRBXMap::indexHPD`, which lives outside this
repository; per the spec it is a pure function from the physical channel
coordinates to a module identifier, so the development is parametric in a
function `hpdMap : HBHEChannelId → Nat`. -/
def hpdAt (hpdMap : HBHEChannelId → Nat) (index : Nat) : Nat := hpdMap (tripleAt index)

/-- Modelled from the spec: the number of hardware modules,
`HcalHPDRBXMap::NUM_HPDS` (a constant defined outside this repository).
No result below depends on its concrete value. -/
def NUM_HPDS : Nat := 144

/-- The azimuth wrap-around of `HBHEChannelMap::calculateNeighborList`:
`if (iPhi == 0) iPhi = 72; else if (iPhi == 73) iPhi = 1;`. -/
def wrapPhi (p : Int) : Int := if p = 0 then 72 else if p = 73 then 1 else p

/-- The ieta-0 jump of `HBHEChannelMap::calculateNeighborList`:
`iEta = eta0 + etaShift; if (iEta == 0) iEta += etaShift;`. -/
def jumpEta (eta0 es : Int) : Int := if eta0 + es = 0 then eta0 + es + es else eta0 + es

/-- The (etaShift, phiShift) pairs visited by the doubly nested loop of
`calculateNeighborList`, skipping (0, 0), in loop order. -/
def shifts : List (Int × Int) :=
  [(-1, -1), (-1, 0), (-1, 1), (0, -1), (0, 1), (1, -1), (1, 0), (1, 1)]

/-- The candidate triple probed for one shift pair. -/
def neighborTriple (cid : HBHEChannelId) (s : Int × Int) : HBHEChannelId :=
  ⟨cid.depth, jumpEta cid.ieta s.1, (wrapPhi ((cid.iphi : Int) + s.2)).toNat⟩

/-- The loop body of `calculateNeighborList` for one candidate triple:
look the candidate up in `inverse_`; if found and on a different HPD than
`myHPD`, it is recorded. -/
def nbStep (hpdMap : HBHEChannelId → Nat) (myHPD : Nat) (t : HBHEChannelId) : Option Nat :=
  match findChannel t with
  | some nb => if hpdAt hpdMap nb ≠ myHPD then some nb else none
  | none => none

/-- Embeds `HBHEChannelMap::calculateNeighborList`: collect the up to 8 cross-module
neighbors of the channel at `index` and sort them.  The C++ reads
`lookup_[index]` directly and is only invoked for `index < ChannelCount`;
other indices produce an empty list here. -/
def calculateNeighborList (hpdMap : HBHEChannelId → Nat) (index : Nat) : List Nat :=
  if index < ChannelCount then
    ((shifts.map (neighborTriple (tripleAt index))).filterMap
      (nbStep hpdMap (hpdAt hpdMap index))).insertionSort (· ≤ ·)
  else []

/-- The lazily filled caches of `HBHEChannelMap`: the per-channel neighbor
lists `channel_neighbors_` with their `neighborInfoFilled_` flag, and the
per-module neighbor lists `hpd_neighbors_` with `hpdNeighborsFilled_`. -/
structure MapState where
  channelNeighbors : Nat → List Nat
  neighborInfoFilled : Bool
  hpdNeighbors : Nat → List Nat
  hpdNeighborsFilled : Bool

/-- The cache state right after construction: nothing filled yet. -/
def initState : MapState := ⟨fun _ => [], false, fun _ => [], false⟩

/-- The cache-filling pass of `channelNeigborsFromOtherHPDs`: on first use,
`calculateNeighborList` is run for every channel and the filled flag is set. -/
def fillChannelCache (hpdMap : HBHEChannelId → Nat) (st : MapState) : MapState :=
  if st.neighborInfoFilled then st else
    ⟨fun i => calculateNeighborList hpdMap i, true, st.hpdNeighbors, st.hpdNeighborsFilled⟩

/-- Embeds `HBHEChannelMap::channelNeigborsFromOtherHPDs` (spelling as in the
source): bounds-check the index, fill the whole per-channel cache on first
use, and return the cached list together with the new cache state. -/
def channelNeigborsFromOtherHPDs (hpdMap : HBHEChannelId → Nat) (st : MapState)
    (index : Nat) : Except MapError (List Nat × MapState) :=
  if index < ChannelCount then
    .ok ((fillChannelCache hpdMap st).channelNeighbors index, fillChannelCache hpdMap st)
  else .error .IndexOutOfRange

/-- The per-module channel buckets `hpd_channel_lookup_`: built at
construction by scanning channels in ascending index order and appending
each to its module's bucket, so bucket `hpd` holds exactly the indices with
that HPD, ascending. -/
def moduleChannels (hpdMap : HBHEChannelId → Nat) (hpd : Nat) : List Nat :=
  (List.range ChannelCount).filter (fun i => hpdAt hpdMap i = hpd)

/-- Embeds `HBHEChannelMap::calculateHPDNeighbors`: insert every cross-module
neighbor of every channel of the module into a `std::set` (sorted, unique),
copy it out and sort. -/
def calculateHPDNeighbors (hpdMap : HBHEChannelId → Nat) (hpd : Nat) : List Nat :=
  (((moduleChannels hpdMap hpd).flatMap
      (fun c => calculateNeighborList hpdMap c)).insertionSort (· ≤ ·)).dedup

/-- The cache-filling pass of `getHPDNeigbors`: on first use,
`calculateHPDNeighbors` is run for every module and the filled flag is set. -/
def fillHPDCache (hpdMap : HBHEChannelId → Nat) (st : MapState) : MapState :=
  if st.hpdNeighborsFilled then st else
    ⟨st.channelNeighbors, st.neighborInfoFilled,
      fun h => calculateHPDNeighbors hpdMap h, true⟩

/-- Embeds `HBHEChannelMap::getHPDNeigbors` (spelling as in the source):
bounds-check the module index, fill the whole per-module cache on first
use, and return the cached list together with the new cache state. -/
def getHPDNeigbors (hpdMap : HBHEChannelId → Nat) (st : MapState)
    (hpd : Nat) : Except MapError (List Nat × MapState) :=
  if hpd < NUM_HPDS then
    .ok ((fillHPDCache hpdMap st).hpdNeighbors hpd, fillHPDCache hpdMap st)
  else .error .IndexOutOfRange

/-- Embeds `HBHEChannelMap::channelSetNeighbors`: union of the cached cross-module
neighbor lists of the input channels, sorted with duplicates removed
(`std::sort` followed by `std::unique_copy`). -/
def channelSetNeighbors (hpdMap : HBHEChannelId → Nat) (input : List Nat) : List Nat :=
  ((input.flatMap (fun c => calculateNeighborList hpdMap c)).insertionSort (· ≤ ·)).dedup

/-- Cache coherence: whatever is marked as filled holds the values the
filling pass computes.  This holds for `initState` and is preserved by the
cache-filling operations. -/
def Coherent (hpdMap : HBHEChannelId → Nat) (st : MapState) : Prop :=
  (st.neighborInfoFilled = true →
    st.channelNeighbors = fun i => calculateNeighborList hpdMap i) ∧
  (st.hpdNeighborsFilled = true →
    st.hpdNeighbors = fun h => calculateHPDNeighbors hpdMap h)

theorem coherent_init (hpdMap : HBHEChannelId → Nat) : Coherent hpdMap initState := by
  unfold Coherent
  refine ⟨fun h => absurd h (by decide), fun h => absurd h (by decide)⟩

/-- The adjacency relation described by the spec for channel neighbors:
same depth, one step in each of ieta and iphi (not both zero), with the
ieta-0 skip and the azimuth wrap-around. -/
abbrev AdjShift (a b : HBHEChannelId) : Prop :=
  b.depth = a.depth ∧ ∃ es ∈ ([-1, 0, 1] : List Int), ∃ ps ∈ ([-1, 0, 1] : List Int),
    ¬(es = 0 ∧ ps = 0) ∧ b.ieta = jumpEta a.ieta es ∧
      (b.iphi : Int) = wrapPhi ((a.iphi : Int) + ps)

theorem mem_shifts_iff {es ps : Int} :
    (es, ps) ∈ shifts ↔
      es ∈ ([-1, 0, 1] : List Int) ∧ ps ∈ ([-1, 0, 1] : List Int) ∧ ¬(es = 0 ∧ ps = 0) := by
  simp only [shifts, List.mem_cons, List.not_mem_nil, or_false, Prod.mk.injEq,
    List.mem_singleton]
  omega

theorem valid_bounds {c : HBHEChannelId} (h : ValidTriple c) :
    c.ieta ≠ 0 ∧ 1 ≤ c.iphi ∧ c.iphi ≤ 72 := by
  unfold ValidTriple OddPhi FullPhi at h
  omega

theorem jumpEta_inj {e : Int} {a b : Int}
    (ha : a ∈ ([-1, 0, 1] : List Int)) (hb : b ∈ ([-1, 0, 1] : List Int))
    (h : jumpEta e a = jumpEta e b) : a = b := by
  simp only [List.mem_cons, List.not_mem_nil, or_false, List.mem_singleton] at ha hb
  unfold jumpEta at h
  split_ifs at h <;> omega

theorem wrapPhi_bounds {p : Int} (hp1 : 1 ≤ p) (hp2 : p ≤ 72) {ps : Int}
    (hps : ps ∈ ([-1, 0, 1] : List Int)) :
    1 ≤ wrapPhi (p + ps) ∧ wrapPhi (p + ps) ≤ 72 := by
  simp only [List.mem_cons, List.not_mem_nil, or_false, List.mem_singleton] at hps
  unfold wrapPhi
  split_ifs <;> omega

theorem wrapPhi_inj {p : Int} (hp1 : 1 ≤ p) (hp2 : p ≤ 72) {a b : Int}
    (ha : a ∈ ([-1, 0, 1] : List Int)) (hb : b ∈ ([-1, 0, 1] : List Int))
    (h : wrapPhi (p + a) = wrapPhi (p + b)) : a = b := by
  simp only [List.mem_cons, List.not_mem_nil, or_false, List.mem_singleton] at ha hb
  unfold wrapPhi at h
  split_ifs at h <;> omega

theorem cid_eq {a b : HBHEChannelId} (h1 : a.depth = b.depth) (h2 : a.ieta = b.ieta)
    (h3 : a.iphi = b.iphi) : a = b := by
  cases a; cases b
  simp only at h1 h2 h3
  subst h1; subst h2; subst h3
  rfl

theorem neighborTriples_nodup {cid : HBHEChannelId} (hmem : cid ∈ lookup) :
    (shifts.map (neighborTriple cid)).Nodup := by
  obtain ⟨-, hp1, hp2⟩ := valid_bounds (mem_lookup_iff.mp hmem)
  refine List.Nodup.map_on ?_ (by decide)
  rintro ⟨a1, a2⟩ hx ⟨b1, b2⟩ hy hf
  rw [mem_shifts_iff] at hx hy
  unfold neighborTriple at hf
  have hie : jumpEta cid.ieta a1 = jumpEta cid.ieta b1 := congrArg HBHEChannelId.ieta hf
  have hip : (wrapPhi ((cid.iphi : Int) + a2)).toNat = (wrapPhi ((cid.iphi : Int) + b2)).toNat :=
    congrArg HBHEChannelId.iphi hf
  have hp1' : (1 : Int) ≤ (cid.iphi : Int) := by exact_mod_cast hp1
  have hp2' : (cid.iphi : Int) ≤ 72 := by exact_mod_cast hp2
  have hwa := wrapPhi_bounds hp1' hp2' hx.2.1
  have hwb := wrapPhi_bounds hp1' hp2' hy.2.1
  have hip' : wrapPhi ((cid.iphi : Int) + a2) = wrapPhi ((cid.iphi : Int) + b2) := by
    have la := Int.toNat_of_nonneg (by omega : (0 : Int) ≤ wrapPhi ((cid.iphi : Int) + a2))
    have lb := Int.toNat_of_nonneg (by omega : (0 : Int) ≤ wrapPhi ((cid.iphi : Int) + b2))
    omega
  have e1 : a1 = b1 := jumpEta_inj hx.1 hy.1 hie
  have e2 : a2 = b2 := wrapPhi_inj hp1' hp2' hx.2.1 hy.2.1 hip'
  rw [e1, e2]

theorem nbStep_eq_some {hpdMap : HBHEChannelId → Nat} {myHPD : Nat}
    {t : HBHEChannelId} {j : Nat} :
    nbStep hpdMap myHPD t = some j ↔
      j < ChannelCount ∧ tripleAt j = t ∧ hpdAt hpdMap j ≠ myHPD := by
  unfold nbStep
  cases hf : findChannel t with
  | none =>
      simp only [reduceCtorEq, false_iff]
      rintro ⟨hj, rfl, _⟩
      rw [findChannel_eq_none] at hf
      exact hf (tripleAt_mem hj)
  | some nb =>
      rw [findChannel_eq_some] at hf
      dsimp only
      by_cases hh : hpdAt hpdMap nb ≠ myHPD
      · rw [if_pos hh]
        constructor
        · rintro h
          cases h
          exact ⟨hf.1, hf.2, hh⟩
        · rintro ⟨hj, ht, hd⟩
          have : j = nb := tripleAt_inj hj hf.1 (ht.trans hf.2.symm)
          rw [this]
      · rw [if_neg hh]
        simp only [reduceCtorEq, false_iff]
        rintro ⟨hj, ht, hd⟩
        have : j = nb := tripleAt_inj hj hf.1 (ht.trans hf.2.symm)
        subst this
        exact hd (by simpa using hh)

theorem mem_calculateNeighborList {hpdMap : HBHEChannelId → Nat} {index j : Nat}
    (h : index < ChannelCount) :
    j ∈ calculateNeighborList hpdMap index ↔
      j < ChannelCount ∧ AdjShift (tripleAt index) (tripleAt j) ∧
        hpdAt hpdMap j ≠ hpdAt hpdMap index := by
  obtain ⟨-, hp1, hp2⟩ := valid_bounds (mem_lookup_iff.mp (tripleAt_mem h))
  have hp1' : (1 : Int) ≤ ((tripleAt index).iphi : Int) := by exact_mod_cast hp1
  have hp2' : ((tripleAt index).iphi : Int) ≤ 72 := by exact_mod_cast hp2
  unfold calculateNeighborList
  rw [if_pos h, List.mem_insertionSort, List.mem_filterMap]
  constructor
  · rintro ⟨t, ht, hstep⟩
    rw [List.mem_map] at ht
    obtain ⟨s, hs, rfl⟩ := ht
    obtain ⟨hj, htrip, hhpd⟩ := nbStep_eq_some.mp hstep
    obtain ⟨es, ps⟩ := s
    rw [mem_shifts_iff] at hs
    refine ⟨hj, ⟨?_, es, hs.1, ps, hs.2.1, hs.2.2, ?_, ?_⟩, hhpd⟩
    · rw [htrip]; rfl
    · rw [htrip]; rfl
    · rw [htrip]
      show ((wrapPhi (((tripleAt index).iphi : Int) + ps)).toNat : Int) = _
      have hb := wrapPhi_bounds hp1' hp2' hs.2.1
      rw [Int.toNat_of_nonneg (by omega)]
  · rintro ⟨hj, ⟨hdep, es, hes, ps, hps, hnz, hie, hip⟩, hhpd⟩
    refine ⟨neighborTriple (tripleAt index) (es, ps), ?_, ?_⟩
    · rw [List.mem_map]
      exact ⟨(es, ps), mem_shifts_iff.mpr ⟨hes, hps, hnz⟩, rfl⟩
    · rw [nbStep_eq_some]
      refine ⟨hj, ?_, hhpd⟩
      refine cid_eq hdep hie ?_
      show (tripleAt j).iphi = (wrapPhi (((tripleAt index).iphi : Int) + ps)).toNat
      rw [← hip, Int.toNat_natCast]

theorem calculateNeighborList_nodup (hpdMap : HBHEChannelId → Nat) (index : Nat) :
    (calculateNeighborList hpdMap index).Nodup := by
  unfold calculateNeighborList
  split
  · next h =>
      refine (List.perm_insertionSort _ _).symm.nodup ?_
      refine List.Nodup.filterMap ?_ (neighborTriples_nodup (tripleAt_mem h))
      intro t t' j hj hj'
      rw [Option.mem_def, nbStep_eq_some] at hj hj'
      rw [← hj.2.1, hj'.2.1]
  · exact List.nodup_nil

theorem calculateNeighborList_sorted (hpdMap : HBHEChannelId → Nat) (index : Nat) :
    (calculateNeighborList hpdMap index).Sorted (· < ·) := by
  have hnd := calculateNeighborList_nodup hpdMap index
  unfold calculateNeighborList at hnd ⊢
  split
  · next h =>
      rw [if_pos h] at hnd
      exact List.Sorted.lt_of_le (List.sorted_insertionSort _ _) hnd
  · exact List.sorted_nil

theorem calculateNeighborList_length_le (hpdMap : HBHEChannelId → Nat) (index : Nat) :
    (calculateNeighborList hpdMap index).length ≤ 8 := by
  unfold calculateNeighborList
  split
  · rw [(List.perm_insertionSort _ _).length_eq]
    calc (List.filterMap _ _).length
        ≤ (shifts.map (neighborTriple (tripleAt index))).length :=
          List.length_filterMap_le _ _
      _ = 8 := by rw [List.length_map]; rfl
  · simp

theorem fillChannelCache_spec {hpdMap : HBHEChannelId → Nat} {st : MapState}
    (hc : Coherent hpdMap st) :
    Coherent hpdMap (fillChannelCache hpdMap st) ∧
    (fillChannelCache hpdMap st).neighborInfoFilled = true ∧
    (fillChannelCache hpdMap st).channelNeighbors =
      fun i => calculateNeighborList hpdMap i := by
  unfold fillChannelCache
  by_cases hf : st.neighborInfoFilled = true
  · rw [if_pos hf]
    exact ⟨hc, hf, hc.1 hf⟩
  · rw [if_neg hf]
    unfold Coherent
    dsimp only
    exact ⟨⟨fun _ => rfl, fun h => hc.2 h⟩, rfl, rfl⟩

theorem fillHPDCache_spec {hpdMap : HBHEChannelId → Nat} {st : MapState}
    (hc : Coherent hpdMap st) :
    Coherent hpdMap (fillHPDCache hpdMap st) ∧
    (fillHPDCache hpdMap st).hpdNeighborsFilled = true ∧
    (fillHPDCache hpdMap st).hpdNeighbors =
      fun h => calculateHPDNeighbors hpdMap h := by
  unfold fillHPDCache
  by_cases hf : st.hpdNeighborsFilled = true
  · rw [if_pos hf]
    exact ⟨hc, hf, hc.2 hf⟩
  · rw [if_neg hf]
    unfold Coherent
    dsimp only
    exact ⟨⟨fun h => hc.1 h, fun _ => rfl⟩, rfl, rfl⟩

theorem channelNeigbors_ok {hpdMap : HBHEChannelId → Nat} {st : MapState} {index : Nat}
    (hc : Coherent hpdMap st) (h : index < ChannelCount) :
    channelNeigborsFromOtherHPDs hpdMap st index =
      .ok (calculateNeighborList hpdMap index, fillChannelCache hpdMap st) ∧
    Coherent hpdMap (fillChannelCache hpdMap st) ∧
    (fillChannelCache hpdMap st).neighborInfoFilled = true := by
  obtain ⟨hc', hfl, hch⟩ := fillChannelCache_spec hc
  unfold channelNeigborsFromOtherHPDs
  rw [if_pos h, hch]
  exact ⟨rfl, hc', hfl⟩

theorem getHPDNeigbors_ok {hpdMap : HBHEChannelId → Nat} {st : MapState} {hpd : Nat}
    (hc : Coherent hpdMap st) (h : hpd < NUM_HPDS) :
    getHPDNeigbors hpdMap st hpd =
      .ok (calculateHPDNeighbors hpdMap hpd, fillHPDCache hpdMap st) ∧
    Coherent hpdMap (fillHPDCache hpdMap st) ∧
    (fillHPDCache hpdMap st).hpdNeighborsFilled = true := by
  obtain ⟨hc', hfl, hch⟩ := fillHPDCache_spec hc
  unfold getHPDNeigbors
  rw [if_pos h, hch]
  exact ⟨rfl, hc', hfl⟩

theorem mem_moduleChannels {hpdMap : HBHEChannelId → Nat} {hpd c : Nat} :
    c ∈ moduleChannels hpdMap hpd ↔ c < ChannelCount ∧ hpdAt hpdMap c = hpd := by
  unfold moduleChannels
  rw [List.mem_filter, List.mem_range]
  simp only [decide_eq_true_eq]

theorem mem_calculateHPDNeighbors {hpdMap : HBHEChannelId → Nat} {hpd j : Nat} :
    j ∈ calculateHPDNeighbors hpdMap hpd ↔
      ∃ c ∈ moduleChannels hpdMap hpd, j ∈ calculateNeighborList hpdMap c := by
  unfold calculateHPDNeighbors
  rw [List.mem_dedup, List.mem_insertionSort, List.mem_flatMap]

theorem calculateHPDNeighbors_sorted (hpdMap : HBHEChannelId → Nat) (hpd : Nat) :
    (calculateHPDNeighbors hpdMap hpd).Sorted (· < ·) := by
  unfold calculateHPDNeighbors
  refine List.Sorted.lt_of_le ?_ (List.nodup_dedup _)
  exact (List.sorted_insertionSort _ _).sublist (List.dedup_sublist _)

/-- Failure outcome of `NoiseTreeHelper::setEMinMaxTS`: the C++ `assert`s
`tsMin < tsMax` and `tsMax <= N_TIME_SLICES`; a violated assertion (which
aborts the process) is the `InvalidWindow` outcome. -/
inductive WindowError where
  | InvalidWindow
  deriving DecidableEq, Repr

/-- The constant `N_TIME_SLICES` from `NoiseTreeHelper.h`. -/
def N_TIME_SLICES : Nat := 10

/-- Embeds `NoiseTreeHelper::setEMinMaxTS`: validate and install the energy window. -/
def setEMinMaxTS (tsMin tsMax : Nat) : Except WindowError (Nat × Nat) :=
  if tsMin < tsMax ∧ tsMax ≤ N_TIME_SLICES then .ok (tsMin, tsMax)
  else .error .InvalidWindow

/-- Embeds `NoiseTreeHelper::energy` for one pulse occurrence: the Method-0 loop
`for (i = eMinTS; i < eMaxTS; ++i) e += (q[i] - ped[i]) * g[i]`, with the
occurrence's per-time-slice charge, pedestal and gain arrays passed as
functions and `double` modelled by `ℚ`. -/
def energy (eMinTS eMaxTS : Nat) (charge pedestal gain : Nat → ℚ) : ℚ :=
  (List.range' eMinTS (eMaxTS - eMinTS)).foldl
    (fun e i => e + (charge i - pedestal i) * gain i) 0

theorem foldl_add_range' (f : Nat → ℚ) :
    ∀ (n a : Nat) (acc : ℚ),
      (List.range' a n).foldl (fun e i => e + f i) acc =
        acc + ∑ t ∈ Finset.Ico a (a + n), f t := by
  intro n
  induction n with
  | zero => intro a acc; simp
  | succ m ih =>
      intro a acc
      rw [List.range'_succ, List.foldl_cons, ih (a + 1) (acc + f a),
        Finset.sum_eq_sum_Ico_succ_bot (by omega : a < a + (m + 1)) f]
      have : a + 1 + m = a + (m + 1) := by omega
      rw [this]
      ring

/-- The energy loop is the window sum from the spec. -/
theorem energy_eq_sum (eMinTS eMaxTS : Nat) (q p g : Nat → ℚ) :
    energy eMinTS eMaxTS q p g =
      ∑ t ∈ Finset.Ico eMinTS eMaxTS, (q t - p t) * g t := by
  unfold energy
  rw [foldl_add_range' (fun i => (q i - p i) * g i) (eMaxTS - eMinTS) eMinTS 0]
  rcases Nat.le_total eMinTS eMaxTS with h | h
  · rw [Nat.add_sub_cancel' h, zero_add]
  · rw [Nat.sub_eq_zero_of_le h]
    have h1 : Finset.Ico eMinTS (eMinTS + 0) = ∅ := Finset.Ico_eq_empty_of_le (by omega)
    have h2 : Finset.Ico eMinTS eMaxTS = ∅ := Finset.Ico_eq_empty_of_le h
    rw [h1, h2]
    simp

/-- A direction vector (`TVector3` with `double` components, modelled over `ℚ`). -/
abbrev Vec3 := ℚ × ℚ × ℚ

/-- The zero vector `TVector3 zero` the geometry constructor compares against. -/
def zeroVec : Vec3 := (0, 0, 0)

/-- One parsed row of a geometry text file, in file order:
`(ieta, iphi, depth, x, y, z)` (see `HBHEChannelGeometry::loadData`). -/
structure GeoRow where
  ieta : Int
  iphi : Int
  depth : Int
  x : ℚ
  y : ℚ
  z : ℚ

/-- The channel triple looked up for a row:
`chmap.linearIndex(get<2>(t), get<0>(t), get<1>(t))`.  The C++ passes the
parsed ints to unsigned parameters; a negative value can never match an
enumerated channel under either conversion, so the conversion is modelled
with `Int.toNat`. -/
def rowCid (r : GeoRow) : HBHEChannelId := ⟨r.depth.toNat, r.ieta, r.iphi.toNat⟩

/-- The direction stored for a row.  The C++ stores `TVector3(x,y,z).Unit()`;
`Unit()` maps the zero vector to itself and any other vector to a nonzero
multiple of itself, and the geometry constructor only compares stored
directions against the zero vector, so the unnormalized vector is stored. -/
def rowVec (r : GeoRow) : Vec3 := (r.x, r.y, r.z)

/-- Failure outcomes of geometry construction: an out-of-geometry row makes
`linearIndex` throw `std::invalid_argument` (`InvalidChannel`); a channel
left without a direction makes the constructor throw `std::runtime_error`
(`MissingGeometryEntry`). -/
inductive GeoError where
  | InvalidChannel
  | MissingGeometryEntry
  deriving DecidableEq, Repr

/-- Embeds `HBHEChannelGeometry::loadData`: for each row in file order, find the
channel's linear index and overwrite that channel's direction. -/
def loadData (rows : List GeoRow) (dirs : Nat → Vec3) : Except GeoError (Nat → Vec3) :=
  match rows with
  | [] => .ok dirs
  | r :: rest =>
      match linearIndex (rowCid r) with
      | .error _ => .error .InvalidChannel
      | .ok idx => loadData rest (fun i => if i = idx then rowVec r else dirs i)

/-- The two `loadData` calls of the `HBHEChannelGeometry` constructor:
directions start at the zero vector, then the HB file and the HE file are
loaded in that order. -/
def loadTwo (hbRows heRows : List GeoRow) : Except GeoError (Nat → Vec3) :=
  match loadData hbRows (fun _ => zeroVec) with
  | .error e => .error e
  | .ok d1 => loadData heRows d1

/-- The `HBHEChannelGeometry` constructor: load both files, then every one of
the `ChannelCount` channels must have a direction different from the zero
vector. -/
def mkGeometry (hbRows heRows : List GeoRow) : Except GeoError (Nat → Vec3) :=
  match loadTwo hbRows heRows with
  | .error e => .error e
  | .ok d2 =>
      match (List.range ChannelCount).find? (fun i => d2 i = zeroVec) with
      | some _ => .error .MissingGeometryEntry
      | none => .ok d2

instance : DecidableEq (Except MapError Nat) := fun a b =>
  match a, b with
  | .ok x, .ok y =>
      if h : x = y then isTrue (by rw [h]) else isFalse (fun hc => h (Except.ok.inj hc))
  | .error x, .error y =>
      if h : x = y then isTrue (by rw [h]) else isFalse (fun hc => h (Except.error.inj hc))
  | .ok _, .error _ => isFalse (fun hc => Except.noConfusion hc)
  | .error _, .ok _ => isFalse (fun hc => Except.noConfusion hc)

/-- How many rows of a file list supply a direction for channel `i`. -/
def receivedCount (rows : List GeoRow) (i : Nat) : Nat :=
  rows.countP (fun r => decide (linearIndex (rowCid r) = Except.ok i))

theorem loadData_apply {rows : List GeoRow} {dirs d' : Nat → Vec3}
    (h : loadData rows dirs = .ok d') (i : Nat) :
    ((∀ r ∈ rows, linearIndex (rowCid r) ≠ .ok i) ∧ d' i = dirs i) ∨
    (∃ r ∈ rows, linearIndex (rowCid r) = .ok i ∧ d' i = rowVec r) := by
  induction rows generalizing dirs with
  | nil =>
      left
      refine ⟨fun r hr => absurd hr (List.not_mem_nil r), ?_⟩
      unfold loadData at h
      cases h
      rfl
  | cons r rest ih =>
      unfold loadData at h
      cases hidx : linearIndex (rowCid r) with
      | error e => rw [hidx] at h; cases h
      | ok idx =>
          rw [hidx] at h
          rcases ih h with ⟨hnone, heq⟩ | ⟨r', hr', hidx', heq⟩
          · by_cases hii : i = idx
            · right
              refine ⟨r, List.mem_cons_self r rest, ?_, ?_⟩
              · rw [hidx, hii]
              · rw [heq, if_pos hii]
            · left
              refine ⟨?_, ?_⟩
              · intro r' hr'
                rcases List.mem_cons.mp hr' with rfl | hmem
                · rw [hidx]
                  intro hc
                  exact hii (by cases hc; rfl)
                · exact hnone r' hmem
              · rw [heq, if_neg hii]
          · right
            exact ⟨r', List.mem_cons_of_mem r hr', hidx', heq⟩

theorem loadData_total {rows : List GeoRow} (h : ∀ r ∈ rows, rowCid r ∈ lookup) :
    ∀ dirs : Nat → Vec3, ∃ d', loadData rows dirs = .ok d' := by
  induction rows with
  | nil => intro dirs; exact ⟨dirs, rfl⟩
  | cons r rest ih =>
      intro dirs
      have hm : rowCid r ∈ lookup := h r (List.mem_cons_self r rest)
      have hidx : linearIndex (rowCid r) = .ok (lookup.indexOf (rowCid r)) := by
        unfold linearIndex findChannel
        rw [if_pos hm]
      obtain ⟨d', hd'⟩ := ih (fun r' hr' => h r' (List.mem_cons_of_mem r hr'))
        (fun i => if i = lookup.indexOf (rowCid r) then rowVec r else dirs i)
      exact ⟨d', by unfold loadData; rw [hidx]; exact hd'⟩

/-- Modelled from the spec: the per-jet energy-budget pruning loop of
`FFTJetChannelSelector::select` (file `FFTJetChannelSelector.icc`, which is
not among the provided sources).  Walk the jet's channel energies in
ascending order keeping a running discard sum `acc`; a channel is discarded
(`false`) while including it keeps the running sum within the budget,
otherwise it is kept (`true`). -/
def pruneSorted (budget : ℚ) : ℚ → List ℚ → List (ℚ × Bool)
  | _, [] => []
  | acc, e :: rest =>
      if acc + e ≤ budget then (e, false) :: pruneSorted budget (acc + e) rest
      else (e, true) :: pruneSorted budget acc rest

/-- Modelled from the spec: the whole pruning step for one jet — sort the
associated channel energies ascending and run the budget walk with budget
`f * jetTotal` and an empty running sum. -/
def energyBudgetPrune (f jetTotal : ℚ) (energies : List ℚ) : List (ℚ × Bool) :=
  pruneSorted (f * jetTotal) 0 (energies.insertionSort (· ≤ ·))

theorem pruneSorted_fst (budget : ℚ) :
    ∀ (acc : ℚ) (l : List ℚ), (pruneSorted budget acc l).map Prod.fst = l := by
  intro acc l
  induction l generalizing acc with
  | nil => rfl
  | cons e rest ih =>
      unfold pruneSorted
      by_cases hb : acc + e ≤ budget
      · rw [if_pos hb, List.map_cons, ih (acc + e)]
      · rw [if_neg hb, List.map_cons, ih acc]

theorem pruneSorted_keep_all (budget acc : ℚ) (l : List ℚ)
    (h : ∀ e ∈ l, budget < acc + e) :
    pruneSorted budget acc l = l.map (fun e => (e, true)) := by
  induction l with
  | nil => rfl
  | cons e rest ih =>
      unfold pruneSorted
      rw [if_neg (not_le.mpr (h e (List.mem_cons_self e rest))), List.map_cons]
      congr 1
      exact ih (fun e' he' => h e' (List.mem_cons_of_mem e he'))

/-- On an ascending list the budget walk discards exactly a prefix: the
longest prefix whose sum stays within the budget; everything after it is
kept. -/
theorem pruneSorted_split (budget : ℚ) :
    ∀ (l : List ℚ), l.Sorted (· ≤ ·) → ∀ acc : ℚ,
      ∃ k, k ≤ l.length ∧
        pruneSorted budget acc l =
          (l.take k).map (fun e => (e, false)) ++ (l.drop k).map (fun e => (e, true)) ∧
        (0 < k → acc + (l.take k).sum ≤ budget) ∧
        (k < l.length → budget < acc + (l.take (k + 1)).sum) := by
  intro l
  induction l with
  | nil =>
      intro _ acc
      exact ⟨0, by simp [pruneSorted]⟩
  | cons e rest ih =>
      intro hs acc
      rw [List.sorted_cons] at hs
      by_cases hb : acc + e ≤ budget
      · obtain ⟨k, hk, heq, hlow, hhigh⟩ := ih hs.2 (acc + e)
        refine ⟨k + 1, by simpa using hk, ?_, ?_, ?_⟩
        · unfold pruneSorted
          rw [if_pos hb, heq, List.take_succ_cons, List.drop_succ_cons, List.map_cons]
          rfl
        · intro _
          rw [List.take_succ_cons, List.sum_cons]
          rcases Nat.eq_zero_or_pos k with h0 | hpos
          · subst h0
            simpa using hb
          · have := hlow hpos
            linarith
        · intro hlt
          rw [List.take_succ_cons, List.sum_cons]
          have := hhigh (by simpa using hlt)
          linarith
      · refine ⟨0, Nat.zero_le _, ?_, fun h0 => absurd h0 (lt_irrefl 0), ?_⟩
        · rw [List.take_zero, List.drop_zero, List.map_nil, List.nil_append]
          unfold pruneSorted
          rw [if_neg hb, List.map_cons]
          congr 1
          refine pruneSorted_keep_all budget acc rest (fun e' he' => ?_)
          have h1 : e ≤ e' := hs.1 e' he'
          have h2 : budget < acc + e := not_le.mp hb
          linarith
        · intro _
          have h2 : budget < acc + e := not_le.mp hb
          simpa using h2

/-- C1: for every (depth, ieta, iphi) triple in the enumerated channel set,
`linearIndex` returns an index, and the index-to-triple lookup
(`getChannelTriple`) applied to that index returns the original triple: the
index-to-triple map is a left inverse of `linearIndex` on the valid set. -/
theorem c1_linearIndex_roundtrip (cid : HBHEChannelId) (h : cid ∈ lookup) :
    ∃ i, linearIndex cid = .ok i ∧ getChannelTriple i = .ok cid := by
  have hidx : lookup.indexOf cid < lookup.length := List.indexOf_lt_length.mpr h
  have hcc : lookup.indexOf cid < ChannelCount := by rw [← lookup_length]; exact hidx
  refine ⟨lookup.indexOf cid, ?_, ?_⟩
  · unfold linearIndex findChannel
    rw [if_pos h]
  · unfold getChannelTriple
    rw [if_pos hcc, tripleAt_eq_get hidx, List.indexOf_get hidx]

/-- Witness for C1 at the concrete triple (1, -29, 1). -/
theorem c1_witness :
    (⟨1, -29, 1⟩ : HBHEChannelId) ∈ lookup ∧
    ∃ i, linearIndex ⟨1, -29, 1⟩ = .ok i ∧ getChannelTriple i = .ok ⟨1, -29, 1⟩ :=
  have hm : (⟨1, -29, 1⟩ : HBHEChannelId) ∈ lookup := mem_lookup_iff.mpr (by decide)
  ⟨hm, c1_linearIndex_roundtrip _ hm⟩

/-- C4: within the asserted argument ranges, the subdetector classification
maps |ieta| ≤ 15 to the barrel, |ieta| = 16 with depth ≤ 2 to the barrel,
|ieta| = 16 with depth 3 to the endcap, and |ieta| ≥ 17 to the endcap. -/
theorem c4_getSubdetector_rule (depth : Nat) (ieta : Int)
    (h1 : ieta.natAbs ≤ 29) (h2 : 0 < depth) (h3 : depth < 4)
    (h4 : ieta.natAbs = 29 → depth ≤ 2) :
    (ieta.natAbs ≤ 15 → getSubdetector depth ieta = some .HcalBarrel) ∧
    (ieta.natAbs = 16 → depth ≤ 2 → getSubdetector depth ieta = some .HcalBarrel) ∧
    (ieta.natAbs = 16 → depth = 3 → getSubdetector depth ieta = some .HcalEndcap) ∧
    (17 ≤ ieta.natAbs → getSubdetector depth ieta = some .HcalEndcap) := by
  unfold getSubdetector
  rw [if_pos ⟨h1, h2, h3, h4⟩]
  refine ⟨?_, ?_, ?_, ?_⟩
  · intro ha
    rw [if_pos ha]
  · intro ha hd
    rw [if_neg (by omega), if_pos ha, if_pos hd]
  · intro ha hd
    rw [if_neg (by omega), if_pos ha, if_neg (by omega)]
  · intro ha
    rw [if_neg (by omega), if_neg (by omega)]

/-- Witness for C4 at the boundary cases (depth 2, ieta 16) and
(depth 3, ieta 16). -/
theorem c4_witness :
    getSubdetector 2 16 = some .HcalBarrel ∧ getSubdetector 3 16 = some .HcalEndcap :=
  ⟨(c4_getSubdetector_rule 2 16 (by decide) (by decide) (by decide) (by decide)).2.1
      (by decide) (by decide),
   (c4_getSubdetector_rule 3 16 (by decide) (by decide) (by decide) (by decide)).2.2.1
      (by decide) (by decide)⟩

/-- C5: the channel enumeration is built from fixed constants with no
external input — any two lists produced by the construction are identical —
and its length equals the asserted fixed detector constant
`ChannelCount = 5184`. -/
theorem c5_construction_deterministic_count :
    ∀ l1 l2 : List HBHEChannelId, l1 = lookup → l2 = lookup →
      l1 = l2 ∧ l1.length = ChannelCount ∧ ChannelCount = 5184 := by
  rintro l1 l2 rfl rfl
  exact ⟨rfl, lookup_length, rfl⟩

/-- Witness for C5: the construction compared with itself. -/
theorem c5_witness :
    lookup = lookup ∧ lookup.length = ChannelCount ∧ ChannelCount = 5184 :=
  c5_construction_deterministic_count lookup lookup rfl rfl

/-- C6: `linearIndex` fails with the invalid-channel error exactly on triples
outside the enumerated set and otherwise returns the enumeration index;
the index-to-triple lookup fails with the out-of-range error exactly on
indices at or beyond the channel count and otherwise returns the stored
triple. -/
theorem c6_lookup_error_handling :
    (∀ cid : HBHEChannelId,
      (cid ∈ lookup →
        ∃ i, linearIndex cid = .ok i ∧ i < ChannelCount ∧ tripleAt i = cid) ∧
      (cid ∉ lookup → linearIndex cid = .error .InvalidChannel)) ∧
    (∀ index : Nat,
      (index < ChannelCount → getChannelTriple index = .ok (tripleAt index)) ∧
      (ChannelCount ≤ index → getChannelTriple index = .error .IndexOutOfRange)) := by
  constructor
  · intro cid
    constructor
    · intro h
      have hidx : lookup.indexOf cid < lookup.length := List.indexOf_lt_length.mpr h
      refine ⟨lookup.indexOf cid, ?_, by rw [← lookup_length]; exact hidx, ?_⟩
      · unfold linearIndex findChannel
        rw [if_pos h]
      · rw [tripleAt_eq_get hidx]
        exact List.indexOf_get hidx
    · intro h
      unfold linearIndex findChannel
      rw [if_neg h]
  · intro index
    constructor
    · intro h
      unfold getChannelTriple
      rw [if_pos h]
    · intro h
      unfold getChannelTriple
      rw [if_neg (by omega)]

/-- Witness for C6: the invalid triple (1, 0, 1) and the out-of-range
index 5184. -/
theorem c6_witness :
    linearIndex ⟨1, 0, 1⟩ = .error .InvalidChannel ∧
    getChannelTriple 5184 = .error .IndexOutOfRange :=
  ⟨(c6_lookup_error_handling.1 ⟨1, 0, 1⟩).2
      (fun hm => absurd (mem_lookup_iff.mp hm) (by decide)),
   (c6_lookup_error_handling.2 5184).2 (by decide)⟩

/-- C8: for a channel occurrence (its per-time-slice sample, pedestal and
gain arrays) and a window with `tsMin < tsMax ≤ N_TIME_SLICES`, configuring
succeeds and the energy operation returns the sum over t in [tsMin, tsMax)
of (sample t - pedestal t) * gain t; a window violating the constraint fails
with InvalidWindow at configuration time. -/
theorem c8_energy_window (tsMin tsMax : Nat) (q p g : Nat → ℚ) :
    (tsMin < tsMax ∧ tsMax ≤ N_TIME_SLICES →
      setEMinMaxTS tsMin tsMax = .ok (tsMin, tsMax) ∧
      energy tsMin tsMax q p g = ∑ t ∈ Finset.Ico tsMin tsMax, (q t - p t) * g t) ∧
    (¬(tsMin < tsMax ∧ tsMax ≤ N_TIME_SLICES) →
      setEMinMaxTS tsMin tsMax = .error .InvalidWindow) := by
  constructor
  · intro h
    refine ⟨?_, energy_eq_sum _ _ _ _ _⟩
    unfold setEMinMaxTS
    rw [if_pos h]
  · intro h
    unfold setEMinMaxTS
    rw [if_neg h]

/-- Witness for C8 at the default window [3, 8) with concrete waveforms. -/
theorem c8_witness :
    setEMinMaxTS 3 8 = .ok (3, 8) ∧
    energy 3 8 (fun t => (t : ℚ)) (fun _ => 0) (fun _ => 1) =
      ∑ t ∈ Finset.Ico (3 : Nat) 8, (((t : ℚ)) - 0) * 1 :=
  (c8_energy_window 3 8 (fun t => (t : ℚ)) (fun _ => 0) (fun _ => 1)).1 (by decide)

instance (a b : HBHEChannelId) : Decidable (AdjShift a b) :=
  inferInstanceAs (Decidable (b.depth = a.depth ∧ ∃ es ∈ ([-1, 0, 1] : List Int),
    ∃ ps ∈ ([-1, 0, 1] : List Int), ¬(es = 0 ∧ ps = 0) ∧ b.ieta = jumpEta a.ieta es ∧
      (b.iphi : Int) = wrapPhi ((a.iphi : Int) + ps)))

/-- C2: for every valid channel index, the channel-level neighbor query
returns (computing the cache on first use) the sorted set of exactly those
channel indices that share the source's depth, lie one step away in ieta and
iphi (8-connectivity, azimuth bin 0 wrapping to 72 and bin 73 to 1, a shift
landing on ieta = 0 pushed one further), and belong to a different hardware
module; in particular channels at iphi = 1 and iphi = 72 with equal ieta and
depth on different modules are neighbors. -/
theorem c2_channelNeighbors_query (hpdMap : HBHEChannelId → Nat) (st : MapState)
    (index : Nat) (hc : Coherent hpdMap st) (h : index < ChannelCount) :
    (channelNeigborsFromOtherHPDs hpdMap st index =
        .ok (calculateNeighborList hpdMap index, fillChannelCache hpdMap st) ∧
      (calculateNeighborList hpdMap index).Sorted (· < ·) ∧
      (∀ j, j ∈ calculateNeighborList hpdMap index ↔
        j < ChannelCount ∧ AdjShift (tripleAt index) (tripleAt j) ∧
          hpdAt hpdMap j ≠ hpdAt hpdMap index)) ∧
    (∀ jdx, jdx < ChannelCount →
      (tripleAt jdx).depth = (tripleAt index).depth →
      (tripleAt jdx).ieta = (tripleAt index).ieta →
      (tripleAt index).iphi = 1 → (tripleAt jdx).iphi = 72 →
      hpdAt hpdMap jdx ≠ hpdAt hpdMap index →
      jdx ∈ calculateNeighborList hpdMap index) := by
  refine ⟨⟨(channelNeigbors_ok hc h).1, calculateNeighborList_sorted _ _,
    fun j => mem_calculateNeighborList h⟩, ?_⟩
  intro jdx hjc hd he hp1 hp72 hh
  rw [mem_calculateNeighborList h]
  refine ⟨hjc, ⟨hd, 0, by decide, -1, by decide, by norm_num, ?_, ?_⟩, hh⟩
  · have hvb := valid_bounds (mem_lookup_iff.mp (tripleAt_mem h))
    unfold jumpEta
    rw [if_neg (by omega)]
    omega
  · rw [hp72, hp1]
    norm_num [wrapPhi]

/-- Witness for C2 at the module map that puts every channel in module 0,
the fresh cache state, and channel index 0. -/
theorem c2_witness :
    (0 < ChannelCount ∧ Coherent (fun _ => 0) initState) ∧
    ((channelNeigborsFromOtherHPDs (fun _ => 0) initState 0 =
        .ok (calculateNeighborList (fun _ => 0) 0, fillChannelCache (fun _ => 0) initState) ∧
      (calculateNeighborList (fun _ => 0) 0).Sorted (· < ·) ∧
      (∀ j, j ∈ calculateNeighborList (fun _ => 0) 0 ↔
        j < ChannelCount ∧ AdjShift (tripleAt 0) (tripleAt j) ∧
          hpdAt (fun _ => 0) j ≠ hpdAt (fun _ => 0) 0)) ∧
    (∀ jdx, jdx < ChannelCount →
      (tripleAt jdx).depth = (tripleAt 0).depth →
      (tripleAt jdx).ieta = (tripleAt 0).ieta →
      (tripleAt 0).iphi = 1 → (tripleAt jdx).iphi = 72 →
      hpdAt (fun _ => 0) jdx ≠ hpdAt (fun _ => 0) 0 →
      jdx ∈ calculateNeighborList (fun _ => 0) 0)) :=
  ⟨⟨by decide, coherent_init _⟩,
    c2_channelNeighbors_query (fun _ => 0) initState 0 (coherent_init _) (by decide)⟩

/-- C10: for every valid channel index, the computed cross-module neighbor
list has at most 8 entries, is strictly sorted without duplicates, contains
only valid channel indices, and contains neither the source channel nor any
channel of the source's own hardware module. -/
theorem c10_crossModuleNeighborList_invariants (hpdMap : HBHEChannelId → Nat)
    (index : Nat) (h : index < ChannelCount) :
    (calculateNeighborList hpdMap index).length ≤ 8 ∧
    (calculateNeighborList hpdMap index).Sorted (· < ·) ∧
    (calculateNeighborList hpdMap index).Nodup ∧
    ∀ j ∈ calculateNeighborList hpdMap index,
      j < ChannelCount ∧ j ≠ index ∧ hpdAt hpdMap j ≠ hpdAt hpdMap index := by
  refine ⟨calculateNeighborList_length_le _ _, calculateNeighborList_sorted _ _,
    calculateNeighborList_nodup _ _, ?_⟩
  intro j hj
  obtain ⟨hjc, -, hhpd⟩ := (mem_calculateNeighborList h).mp hj
  exact ⟨hjc, fun hji => hhpd (by rw [hji]), hhpd⟩

/-- Witness for C10 at the all-in-one-module map and channel index 0. -/
theorem c10_witness :
    0 < ChannelCount ∧
    ((calculateNeighborList (fun _ => 0) 0).length ≤ 8 ∧
    (calculateNeighborList (fun _ => 0) 0).Sorted (· < ·) ∧
    (calculateNeighborList (fun _ => 0) 0).Nodup ∧
    ∀ j ∈ calculateNeighborList (fun _ => 0) 0,
      j < ChannelCount ∧ j ≠ 0 ∧ hpdAt (fun _ => 0) j ≠ hpdAt (fun _ => 0) 0) :=
  ⟨by decide, c10_crossModuleNeighborList_invariants (fun _ => 0) 0 (by decide)⟩

/-- A concrete module map for the C3 counterexample: channel (1, -29, 1)
alone is module 0, everything else is module 1. -/
def hpdC3 : HBHEChannelId → Nat := fun cid => if cid = ⟨1, -29, 1⟩ then 0 else 1

/-- The module-level neighbor set as the claim words it: the union over the
module's channels of their cross-module neighbors' *modules*, deduplicated
and sorted.  Written from the spec sentence for comparison with
`calculateHPDNeighbors`, which the source actually computes. -/
def moduleNeighborsClaimed (hpdMap : HBHEChannelId → Nat) (hpd : Nat) : List Nat :=
  ((((moduleChannels hpdMap hpd).flatMap
      (fun c => calculateNeighborList hpdMap c)).map
        (hpdAt hpdMap)).insertionSort (· ≤ ·)).dedup

/-- Counterexample for C3: with the module map `hpdC3`, module 0's computed
neighbor table holds the neighbor channel index 36, not the neighbor module
identifiers the claim describes. -/
theorem c3_counterexample :
    calculateHPDNeighbors hpdC3 0 ≠ moduleNeighborsClaimed hpdC3 0 := by
  intro heq
  have h36 : 36 ∈ calculateHPDNeighbors hpdC3 0 := by
    rw [mem_calculateHPDNeighbors]
    refine ⟨0, mem_moduleChannels.mpr ⟨by decide, by decide⟩, ?_⟩
    rw [mem_calculateNeighborList (by decide)]
    exact ⟨by decide, by decide, by decide⟩
  rw [heq] at h36
  unfold moduleNeighborsClaimed at h36
  rw [List.mem_dedup, List.mem_insertionSort, List.mem_map] at h36
  obtain ⟨x, -, hval⟩ := h36
  unfold hpdAt hpdC3 at hval
  split_ifs at hval
  all_goals omega

/-- C3 (amended): the module-level neighbor query returns, computing and
caching the whole table on the first access, the sorted deduplicated union,
over all channels of the module, of their cross-module neighbor *channel
indices*. -/
theorem c3_moduleNeighbors_amended (hpdMap : HBHEChannelId → Nat) (st : MapState)
    (hpd : Nat) (hc : Coherent hpdMap st) (h : hpd < NUM_HPDS) :
    getHPDNeigbors hpdMap st hpd =
      .ok (calculateHPDNeighbors hpdMap hpd, fillHPDCache hpdMap st) ∧
    (fillHPDCache hpdMap st).hpdNeighborsFilled = true ∧
    (∀ m, (fillHPDCache hpdMap st).hpdNeighbors m = calculateHPDNeighbors hpdMap m) ∧
    (calculateHPDNeighbors hpdMap hpd).Sorted (· < ·) ∧
    (∀ j, j ∈ calculateHPDNeighbors hpdMap hpd ↔
      ∃ c ∈ moduleChannels hpdMap hpd, j ∈ calculateNeighborList hpdMap c) := by
  obtain ⟨hok, -, hfl⟩ := getHPDNeigbors_ok hc h
  obtain ⟨-, -, hch⟩ := fillHPDCache_spec hc
  exact ⟨hok, hfl, fun m => congrFun hch m, calculateHPDNeighbors_sorted _ _,
    fun j => mem_calculateHPDNeighbors⟩

/-- Witness for the amended C3 at the map `hpdC3`, the fresh cache state and
module 0. -/
theorem c3_amended_witness :
    (0 < NUM_HPDS ∧ Coherent hpdC3 initState) ∧
    (getHPDNeigbors hpdC3 initState 0 =
      .ok (calculateHPDNeighbors hpdC3 0, fillHPDCache hpdC3 initState) ∧
    (fillHPDCache hpdC3 initState).hpdNeighborsFilled = true ∧
    (∀ m, (fillHPDCache hpdC3 initState).hpdNeighbors m = calculateHPDNeighbors hpdC3 m) ∧
    (calculateHPDNeighbors hpdC3 0).Sorted (· < ·) ∧
    (∀ j, j ∈ calculateHPDNeighbors hpdC3 0 ↔
      ∃ c ∈ moduleChannels hpdC3 0, j ∈ calculateNeighborList hpdC3 c)) :=
  ⟨⟨by decide, coherent_init _⟩,
    c3_moduleNeighbors_amended hpdC3 initState 0 (coherent_init _) (by decide)⟩

/-- C7: the energy-budget pruner processes the jet's channels in ascending
energy order; the discarded channels are exactly a maximal-budget prefix of
the ascending order — the running discard sum stays within f times the jet
total, and including the next channel would exceed it — and every channel
from the first kept one upward is kept.  In particular, for jet total 100,
channel energies {1, 2, 97} and f = 0.02, exactly the channel of energy 1 is
discarded. -/
theorem c7_energyBudgetPruner :
    (∀ (f jetTotal : ℚ) (energies : List ℚ),
      (energyBudgetPrune f jetTotal energies).map Prod.fst =
        energies.insertionSort (· ≤ ·) ∧
      ∃ k, k ≤ (energies.insertionSort (· ≤ ·)).length ∧
        energyBudgetPrune f jetTotal energies =
          ((energies.insertionSort (· ≤ ·)).take k).map (fun e => (e, false)) ++
          ((energies.insertionSort (· ≤ ·)).drop k).map (fun e => (e, true)) ∧
        (0 < k → ((energies.insertionSort (· ≤ ·)).take k).sum ≤ f * jetTotal) ∧
        (k < (energies.insertionSort (· ≤ ·)).length →
          f * jetTotal < ((energies.insertionSort (· ≤ ·)).take (k + 1)).sum)) ∧
    energyBudgetPrune (2/100) 100 [1, 2, 97] = [(1, false), (2, true), (97, true)] := by
  constructor
  · intro f jetTotal energies
    refine ⟨pruneSorted_fst _ _ _, ?_⟩
    obtain ⟨k, hk, heq, hlow, hhigh⟩ := pruneSorted_split (f * jetTotal)
      (energies.insertionSort (· ≤ ·)) (List.sorted_insertionSort _ _) 0
    refine ⟨k, hk, heq, fun hpos => ?_, fun hlt => ?_⟩
    · have := hlow hpos
      linarith
    · have := hhigh hlt
      linarith
  · norm_num [energyBudgetPrune, pruneSorted, List.insertionSort, List.orderedInsert]

theorem loadTwo_untouched {hbRows heRows : List GeoRow} {d2 : Nat → Vec3}
    (h : loadTwo hbRows heRows = .ok d2) {i : Nat}
    (hun : ∀ r ∈ hbRows ++ heRows, linearIndex (rowCid r) ≠ .ok i) :
    d2 i = zeroVec := by
  unfold loadTwo at h
  cases h1 : loadData hbRows (fun _ => zeroVec) with
  | error e => rw [h1] at h; cases h
  | ok d1 =>
      rw [h1] at h
      rcases loadData_apply h1 i with ⟨-, heq1⟩ | ⟨r, hr, hidx, -⟩
      · rcases loadData_apply h i with ⟨-, heq2⟩ | ⟨r, hr, hidx, -⟩
        · rw [heq2, heq1]
        · exact absurd hidx (hun r (List.mem_append_right _ hr))
      · exact absurd hidx (hun r (List.mem_append_left _ hr))

/-- C9 (amended): geometry construction succeeds only when every enumerated
channel has received at least one direction entry with a nonzero vector, and
when the files load cleanly but leave some enumerated channel without any
entry, construction fails with the missing-geometry-entry error before any
event is processed.  (A channel may receive more than one entry; the later
entry silently overwrites the earlier one.) -/
theorem c9_geometry_completeness (hbRows heRows : List GeoRow) :
    (∀ d, mkGeometry hbRows heRows = .ok d →
      ∀ i, i < ChannelCount → d i ≠ zeroVec) ∧
    (∀ d2, loadTwo hbRows heRows = .ok d2 →
      (∃ i, i < ChannelCount ∧ ∀ r ∈ hbRows ++ heRows, linearIndex (rowCid r) ≠ .ok i) →
      mkGeometry hbRows heRows = .error .MissingGeometryEntry) := by
  constructor
  · intro d hok i hi
    unfold mkGeometry at hok
    cases h1 : loadTwo hbRows heRows with
    | error e =>
        rw [h1] at hok
        dsimp only at hok
        cases hok
    | ok d2 =>
        rw [h1] at hok
        dsimp only at hok
        cases h2 : (List.range ChannelCount).find? (fun i => d2 i = zeroVec) with
        | some x =>
            rw [h2] at hok
            dsimp only at hok
            cases hok
        | none =>
            rw [h2] at hok
            dsimp only at hok
            obtain rfl : d2 = d := Except.ok.inj hok
            have hne := List.find?_eq_none.mp h2 i (List.mem_range.mpr hi)
            simpa using hne
  · rintro d2 h1 ⟨i, hi, hun⟩
    have hz : d2 i = zeroVec := loadTwo_untouched h1 hun
    unfold mkGeometry
    rw [h1]
    dsimp only
    cases h2 : (List.range ChannelCount).find? (fun i => d2 i = zeroVec) with
    | some x => rfl
    | none =>
        exfalso
        have hne := List.find?_eq_none.mp h2 i (List.mem_range.mpr hi)
        rw [decide_eq_true_eq] at hne
        exact hne hz

/-- A geometry row supplying direction (1, 0, 0) for a given channel. -/
def mkRow (cid : HBHEChannelId) : GeoRow :=
  ⟨cid.ieta, (cid.iphi : Int), (cid.depth : Int), 1, 0, 0⟩

/-- A complete geometry file in which channel (1, -29, 1) — linear index 0 —
appears twice. -/
def dupRows : List GeoRow := lookup.map mkRow ++ [mkRow ⟨1, -29, 1⟩]

theorem rowCid_mkRow (cid : HBHEChannelId) : rowCid (mkRow cid) = cid := by
  cases cid
  simp [rowCid, mkRow]

theorem linearIndex_tripleAt {i : Nat} (hi : i < ChannelCount) :
    linearIndex (tripleAt i) = .ok i :=
  linearIndex_eq_ok.mpr ⟨hi, rfl⟩

theorem dupRows_valid : ∀ r ∈ dupRows, rowCid r ∈ lookup := by
  intro r hr
  rcases List.mem_append.mp hr with hm | hm
  · obtain ⟨cid, hcid, rfl⟩ := List.mem_map.mp hm
    rw [rowCid_mkRow]
    exact hcid
  · rw [List.mem_singleton] at hm
    subst hm
    rw [rowCid_mkRow]
    exact mem_lookup_iff.mpr (by decide)

theorem dupRows_hit {i : Nat} (hi : i < ChannelCount) :
    ∃ r ∈ dupRows, linearIndex (rowCid r) = .ok i := by
  refine ⟨mkRow (tripleAt i), ?_, ?_⟩
  · exact List.mem_append_left _ (List.mem_map_of_mem _ (tripleAt_mem hi))
  · rw [rowCid_mkRow]
    exact linearIndex_tripleAt hi

theorem dupRows_vec : ∀ r ∈ dupRows, rowVec r = (1, 0, 0) := by
  intro r hr
  rcases List.mem_append.mp hr with hm | hm
  · obtain ⟨cid, -, rfl⟩ := List.mem_map.mp hm
    rfl
  · rw [List.mem_singleton] at hm
    subst hm
    rfl

theorem loadTwo_of {hbRows heRows : List GeoRow} {d1 d2 : Nat → Vec3}
    (h1 : loadData hbRows (fun _ => zeroVec) = .ok d1)
    (h2 : loadData heRows d1 = .ok d2) : loadTwo hbRows heRows = .ok d2 := by
  unfold loadTwo
  rw [h1]
  dsimp only
  exact h2

theorem mkGeometry_of {hbRows heRows : List GeoRow} {d2 : Nat → Vec3}
    (h1 : loadTwo hbRows heRows = .ok d2)
    (h2 : (List.range ChannelCount).find? (fun i => d2 i = zeroVec) = none) :
    mkGeometry hbRows heRows = .ok d2 := by
  unfold mkGeometry
  rw [h1]
  dsimp only
  rw [h2]

theorem dupRows_success : ∃ d2, mkGeometry dupRows [] = .ok d2 := by
  obtain ⟨d2, hd2⟩ := loadData_total dupRows_valid (fun _ => zeroVec)
  have hfind : (List.range ChannelCount).find? (fun i => d2 i = zeroVec) = none := by
    rw [List.find?_eq_none]
    intro i hiR
    have hi : i < ChannelCount := List.mem_range.mp hiR
    obtain ⟨r, hr, hidx⟩ := dupRows_hit hi
    rcases loadData_apply hd2 i with ⟨hnone, -⟩ | ⟨r', hr', -, heq⟩
    · exact absurd hidx (hnone r hr)
    · rw [decide_eq_true_eq, heq, dupRows_vec r' hr']
      norm_num [zeroVec, Prod.ext_iff]
  exact ⟨d2, mkGeometry_of (loadTwo_of hd2 rfl) hfind⟩

theorem dupRows_count : receivedCount (dupRows ++ []) 0 = 2 := by
  unfold receivedCount dupRows
  rw [List.append_nil, List.countP_append, List.countP_map]
  have h1 : List.countP
      ((fun r => decide (linearIndex (rowCid r) = Except.ok 0)) ∘ mkRow) lookup = 1 := by
    have hc : List.countP
        ((fun r => decide (linearIndex (rowCid r) = Except.ok 0)) ∘ mkRow) lookup
        = List.countP (fun cid => cid == tripleAt 0) lookup := by
      apply List.countP_congr
      intro cid hcid
      simp only [Function.comp, decide_eq_true_eq, rowCid_mkRow, beq_iff_eq]
      rw [linearIndex_eq_ok]
      constructor
      · rintro ⟨-, ht⟩
        exact ht.symm
      · rintro rfl
        exact ⟨by decide, rfl⟩
    rw [hc]
    exact List.count_eq_one_of_mem lookup_nodup (tripleAt_mem (by decide))
  have h2 : List.countP
      (fun r => decide (linearIndex (rowCid r) = Except.ok 0)) [mkRow ⟨1, -29, 1⟩] = 1 := by
    have hp : linearIndex (rowCid (mkRow ⟨1, -29, 1⟩)) = Except.ok 0 := by
      rw [rowCid_mkRow]
      exact linearIndex_eq_ok.mpr ⟨by decide, rfl⟩
    simp [List.countP_cons, hp]
  rw [h1, h2]

/-- Witness for the amended C9: with two empty geometry files every channel
is missing, and construction fails with the missing-entry error. -/
theorem c9_amended_witness :
    mkGeometry [] [] = .error .MissingGeometryEntry :=
  (c9_geometry_completeness [] []).2 (fun _ => zeroVec) rfl
    ⟨0, by decide, fun r hr => absurd hr (List.not_mem_nil r)⟩

/-- Counterexample for C9 as stated: a geometry build that succeeds although
channel 0 received two direction entries (the later entry silently
overwrites the earlier one), so "exactly one direction per channel" does not
hold. -/
theorem c9_counterexample :
    ¬ (∀ (hbRows heRows : List GeoRow) (d : Nat → Vec3),
        mkGeometry hbRows heRows = .ok d →
        ∀ i, i < ChannelCount → receivedCount (hbRows ++ heRows) i = 1) := by
  intro hclaim
  obtain ⟨d2, hok⟩ := dupRows_success
  have h1 := hclaim dupRows [] d2 hok 0 (by decide)
  rw [dupRows_count] at h1
  exact absurd h1 (by decide)

end NoiseTreeOps
